import Mathlib

/-!
Verification development for the Ginkgo test-tree provider
(GinkgoTestTreeDataProvider and its helper functions).

The TypeScript class is embedded shallowly:

* A GinkgoNode object is an inductive tree of its immutable fields
  (key, name, text, start, end, spec, focused, child list) plus a
  numeric identity tag standing for the JavaScript object identity.
* The mutable per-object fields running and result are held in the
  provider state, keyed by that identity tag: the list running holds
  the tags of objects whose running field is currently true, and
  nodeResult maps tags to the last result written into the object.
  This renders in-place mutation of objects shared between the
  discovered list and the discovery map.
* Every event handler becomes a total function from the provider
  state to a new provider state.  Invalidation events produced by
  the tree-data event emitter are accumulated in the field fired,
  in order; the payload some i is a targeted invalidation of the
  node with tag i and none is a full-tree refresh.
* Timers are rendered by an explicit absolute fire time: the field
  documentChangedTimer holds the time at which the pending timeout
  callback would run, and a separate step function fires a due
  timer.  Wall-clock now is passed to each handler explicitly.
-/

/-- One entry of a result batch, mirroring testResult.ts. -/
structure TestResult where
  testName : String
  isPassed : Bool
  output : Option String
deriving DecidableEq, Repr

/-- A GinkgoNode object from ginkgoNode.ts.  The first component is the
object identity tag; the remaining components are the immutable fields
in source order, with the child objects nested in the last component.
The mutable fields running and result live in the provider state. -/
inductive GinkgoNode where
  | mk (id : Nat) (key name text : String) (start end_ : Int) (spec focused : Bool)
       (nodes : List GinkgoNode)

/-- Object identity tag of a node. -/
def GinkgoNode.id : GinkgoNode → Nat
  | .mk i _ _ _ _ _ _ _ _ => i

/-- The key field of a node. -/
def GinkgoNode.key : GinkgoNode → String
  | .mk _ k _ _ _ _ _ _ _ => k

/-- The name field of a node. -/
def GinkgoNode.name : GinkgoNode → String
  | .mk _ _ nm _ _ _ _ _ _ => nm

/-- The start position of a node. -/
def GinkgoNode.start : GinkgoNode → Int
  | .mk _ _ _ _ st _ _ _ _ => st

/-- The end position of a node. -/
def GinkgoNode.end_ : GinkgoNode → Int
  | .mk _ _ _ _ _ en _ _ _ => en

/-- The child objects of a node. -/
def GinkgoNode.nodes : GinkgoNode → List GinkgoNode
  | .mk _ _ _ _ _ _ _ _ ns => ns

mutual

/-- The node itself followed by all of its descendants, in preorder. -/
def GinkgoNode.subtreeFlatten : GinkgoNode → List GinkgoNode
  | .mk i k nm tx st en sp f ns =>
      .mk i k nm tx st en sp f ns :: subtreeFlattenList ns

/-- Preorder flattening of a list of trees. -/
def subtreeFlattenList : List GinkgoNode → List GinkgoNode
  | [] => []
  | n :: ns => GinkgoNode.subtreeFlatten n ++ subtreeFlattenList ns

end

mutual

/-- Height of a node tree: one for the node plus the maximal child height. -/
def GinkgoNode.height : GinkgoNode → Nat
  | .mk _ _ _ _ _ _ _ _ ns => 1 + heightList ns

/-- Maximal height among a list of trees. -/
def heightList : List GinkgoNode → Nat
  | [] => 0
  | n :: ns => max (GinkgoNode.height n) (heightList ns)

end

/-!  The JavaScript Map used for the discovery index, rendered as an
insertion-ordered association list.  Map.set overwrites the value of an
existing key in place and otherwise appends a fresh binding; Map.get
returns the value bound to the key, if any. -/

/-- Map.set on an insertion-ordered association list. -/
def mapSet (m : List (String × GinkgoNode)) (k : String) (v : GinkgoNode) :
    List (String × GinkgoNode) :=
  match m with
  | [] => [(k, v)]
  | (k2, v2) :: rest => if k2 == k then (k2, v) :: rest else (k2, v2) :: mapSet rest k v

/-- Map.get on an insertion-ordered association list. -/
def mapGet (m : List (String × GinkgoNode)) (k : String) : Option GinkgoNode :=
  (m.find? (fun p => p.1 == k)).map (fun p => p.2)

/-- The discovery index rebuilt from scratch in onDicoveredTest: starting
from a fresh Map, set key to node for every node of the list, in order. -/
def buildDiscoveredMap (l : List GinkgoNode) : List (String × GinkgoNode) :=
  l.foldl (fun m n => mapSet m n.key n) []

/-- A text document: its uri and its language id. -/
structure TextDocument where
  uri : String
  languageId : String
deriving DecidableEq, Repr

/-- A text editor: its document and its view column.  The view column is
undefined exactly when the editor is not a main editor. -/
structure Editor where
  document : TextDocument
  viewColumn : Option Nat
deriving DecidableEq, Repr

/-- isMainEditor from the source: the editor has a defined view column. -/
def isMainEditor (editor : Editor) : Bool :=
  editor.viewColumn != none

/-- A document-changed event: the document it concerns and the number of
content changes it carries. -/
structure TextDocumentChangeEvent where
  document : TextDocument
  contentChanges : Nat
deriving DecidableEq, Repr

/-- The update policy configuration value. -/
inductive UpdateOn where
  | onSave
  | onType
deriving DecidableEq, Repr

/-- The mutable state of one GinkgoTestTreeDataProvider instance.  The
fields mirror the private fields of the class; running and nodeResult
carry the mutable running and result fields of the node objects, keyed
by object identity tag, and fired records every invalidation event
emitted through the tree-data change emitter, oldest first. -/
structure ProviderState where
  editor : Option Editor
  roots : List GinkgoNode
  discoveredTests : List GinkgoNode
  discoveredTestsMap : List (String × GinkgoNode)
  rootNode : Option GinkgoNode
  lastClickedNode : Option GinkgoNode
  lastClickedTime : Option Int
  documentChangedTimer : Option Nat
  updateOn : UpdateOn
  updateOnTypeDelay : Nat
  doubleClickThreshold : Int
  running : List Nat
  nodeResult : List (Nat × TestResult)
  fired : List (Option Nat)

/-- Write true into the running field of the object with tag i. -/
def setRunningTrue (l : List Nat) (i : Nat) : List Nat :=
  if i ∈ l then l else i :: l

/-- Write false into the running field of the object with tag i. -/
def setRunningFalse (l : List Nat) (i : Nat) : List Nat :=
  l.filter (fun j => j ≠ i)

/-- Read the result field of the object with tag i. -/
def resultGet (rs : List (Nat × TestResult)) (i : Nat) : Option TestResult :=
  (rs.find? (fun p => p.1 == i)).map (fun p => p.2)

/-- Write the result field of the object with tag i. -/
def resultSet (rs : List (Nat × TestResult)) (i : Nat) (r : TestResult) :
    List (Nat × TestResult) :=
  match rs with
  | [] => [(i, r)]
  | (j, r2) :: rest => if j == i then (j, r) :: rest else (j, r2) :: resultSet rest i r

/-!  Event handlers of GinkgoTestTreeDataProvider, one Lean function per
method.  Each is a total function on ProviderState. -/

/-- onDicoveredTest (source lines 199 to 206).  The root-node predicate
isRootNode lives in ginkgoNode.ts, which is not part of the sources at
hand, so it is passed as an abstract boolean predicate.
Effect: rootNode becomes the first node satisfying the predicate (or
none), the discovered list is replaced wholesale, and the discovery
index is rebuilt from scratch from the new list. -/
def onDicoveredTest (isRootNode : GinkgoNode → Bool) (nodes : List GinkgoNode)
    (s : ProviderState) : ProviderState :=
  let discovered := if nodes.length > 0 then nodes else []
  { s with rootNode := nodes.find? isRootNode,
           discoveredTests := discovered,
           discoveredTestsMap := buildDiscoveredMap discovered }

/-- onTestRunStarted (source lines 208 to 211): set the running field of
the node object to true and fire a targeted invalidation for it. -/
def onTestRunStarted (testNode : GinkgoNode) (s : ProviderState) : ProviderState :=
  { s with running := setRunningTrue s.running testNode.id,
           fired := s.fired ++ [some testNode.id] }

/-- prepareToRunTest (source lines 75 to 84): for every discovered node
whose key equals the key of the argument, send a run-started event for
it (handled synchronously by onTestRunStarted, the registered handler
on the Commands emitter) and recurse into its children.  The unbounded
JavaScript recursion is rendered with an explicit fuel parameter; when
the fuel runs out the state is returned unchanged. -/
def prepareToRunTest : Nat → GinkgoNode → ProviderState → ProviderState
  | 0, _, s => s
  | Nat.succ fuel, node, s =>
    (s.discoveredTests.filter (fun t => t.key == node.key)).foldl
      (fun st m =>
        let st1 := onTestRunStarted m st
        if m.nodes.length > 0 then
          m.nodes.foldl (fun st2 c => prepareToRunTest fuel c st2) st1
        else st1) s

/-- onActiveEditorChanged (source lines 86 to 96): an event carrying a
defined editor that is not a main editor is ignored; otherwise the
tracked editor is replaced, the outline cache is dropped, and a
full-tree refresh is fired.  The pending debounce timer, if any, is
left untouched by this handler. -/
def onActiveEditorChanged (editor : Option Editor) (s : ProviderState) : ProviderState :=
  match editor with
  | some e =>
      if !(isMainEditor e) then s
      else { s with editor := some e, roots := [], fired := s.fired ++ [none] }
  | none => { s with editor := none, roots := [], fired := s.fired ++ [none] }

/-- isDocumentForActiveEditor (source lines 99 to 104). -/
def isDocumentForActiveEditor (s : ProviderState) (doc : TextDocument) : Bool :=
  match s.editor with
  | none => false
  | some e => e.document.uri == doc.uri

/-- onDocumentChanged (source lines 106 to 119), called at wall-clock
time now: events for other documents or without content changes are
ignored; otherwise the outline cache is dropped, a pending debounce
timer is cleared, and a fresh timer is scheduled to fire a full-tree
refresh at now plus updateOnTypeDelay. -/
def onDocumentChanged (now : Nat) (evt : TextDocumentChangeEvent)
    (s : ProviderState) : ProviderState :=
  if !(isDocumentForActiveEditor s evt.document) then s
  else if evt.contentChanges == 0 then s
  else
    let s1 := { s with roots := [] }
    let s2 :=
      match s1.documentChangedTimer with
      | some _ => { s1 with documentChangedTimer := none }
      | none => s1
    { s2 with documentChangedTimer := some (now + s2.updateOnTypeDelay) }

/-- Subscription wiring of setUpdateOn (source lines 53 to 65): the
onDocumentChanged handler is registered exactly when the update policy
is onType, so in onSave mode a document-changed event reaches no
handler and the state is untouched. -/
def dispatchDocumentChanged (now : Nat) (evt : TextDocumentChangeEvent)
    (s : ProviderState) : ProviderState :=
  match s.updateOn with
  | .onType => onDocumentChanged now evt s
  | .onSave => s

/-- The event-loop step for the single pending timeout: at wall-clock
time now, a timer whose fire time has been reached runs its callback,
which fires a full-tree refresh and clears the handle. -/
def fireTimerIfDue (now : Nat) (s : ProviderState) : ProviderState :=
  match s.documentChangedTimer with
  | some ft =>
      if ft ≤ now then { s with documentChangedTimer := none, fired := s.fired ++ [none] }
      else s
  | none => s

/-- Let a pending timer expire unconditionally: the timeout callback
fires a full-tree refresh. -/
def flushPendingTimer (s : ProviderState) : ProviderState :=
  match s.documentChangedTimer with
  | some _ => { s with documentChangedTimer := none, fired := s.fired ++ [none] }
  | none => s

/-- Run a sequence of timed document-changed events: before each event
the due timer, if any, fires, then the event is dispatched. -/
def runDocChangedTrace (events : List (Nat × TextDocumentChangeEvent))
    (s : ProviderState) : ProviderState :=
  events.foldl (fun st te => dispatchDocumentChanged te.1 te.2 (fireTimerIfDue te.1 st)) s

/-- wasRecentlyClicked (source lines 234 to 238). -/
def wasRecentlyClicked (threshold : Int) (lastClickedNode : GinkgoNode)
    (lastClickedTime : Int) (currentNode : GinkgoNode) (currentTime : Int) : Bool :=
  let isSameNode := lastClickedNode.start == currentNode.start &&
    lastClickedNode.end_ == currentNode.end_
  let recent := decide (currentTime - lastClickedTime < threshold)
  isSameNode && recent

/-- Editor-layer effects requested by clickTreeItem, in request order. -/
inductive EditorEffect where
  | highlightNode (id : Nat)
  | setSelectionToNodeStart (id : Nat)
  | highlightOff
  | focusActiveEditorGroup
deriving DecidableEq, Repr

/-- clickTreeItem (source lines 176 to 197), called at wall-clock time
now: with no tracked editor the handler returns at once.  Otherwise the
double-click test runs only when both lastClickedTime and
lastClickedNode are truthy, which for the numeric time means defined
and nonzero; the click state is then updated unconditionally, and the
handler requests either a transient highlight (single click) or a
caret move, highlight off and editor refocus (double click). -/
def clickTreeItem (element : GinkgoNode) (now : Int) (s : ProviderState) :
    ProviderState × List EditorEffect :=
  match s.editor with
  | none => (s, [])
  | some _ =>
    let recentlyClicked :=
      match s.lastClickedTime, s.lastClickedNode with
      | some lt, some ln =>
          if lt != 0 then
            wasRecentlyClicked s.doubleClickThreshold ln lt element now
          else false
      | _, _ => false
    let s1 := { s with lastClickedTime := some now, lastClickedNode := some element }
    if !recentlyClicked then (s1, [.highlightNode element.id])
    else
      (s1, [.setSelectionToNodeStart element.id, .highlightOff,
            .focusActiveEditorGroup])

/-- The outline produced by the external parser; only its nested roots
are consumed by this class. -/
structure GinkgoOutline where
  nested : List GinkgoNode

/-- User-interface effects requested by getChildren, in request order. -/
inductive UIEffect where
  | logLine (line : String)
  | showErrorMessageOpenLog
deriving Repr

/-- The supported language of GO_MODE.  Modelled from the spec: the
wiring module ginkgoTestExplorer.ts that defines GO_MODE is not among
the sources at hand; the spec only requires that a document of any
other source kind is not parsed. -/
def goLanguage : String := "go"

/-- The tail of getChildren (source lines 152 to 155): the root read
returns the cached roots, a read for a parent returns its children. -/
def getChildrenReturn (s : ProviderState) (element : Option GinkgoNode) :
    ProviderState × Option (List GinkgoNode) × List UIEffect :=
  match element with
  | none => (s, some s.roots, [])
  | some el => (s, some el.nodes, [])

/-- getChildren (source lines 129 to 156).  The external parser
outlineFromDoc is passed as a function returning a result or an error
message; the await of its promise either yields the outline or throws,
and the catch arm absorbs the error, logs it, requests the error
notification with the Open Log affordance, and answers the read with
undefined.  No error escapes the function: it is total. -/
def getChildren (outlineFromDoc : TextDocument → Except String GinkgoOutline)
    (element : Option GinkgoNode) (s : ProviderState) :
    ProviderState × Option (List GinkgoNode) × List UIEffect :=
  match s.editor with
  | none => (s, none, [])
  | some editor =>
    if editor.document.languageId != goLanguage then
      (s, none,
        [.logLine "Did not populate outline view: document language is not Go."])
    else if s.roots.length == 0 then
      match outlineFromDoc editor.document with
      | .error err =>
          (s, none,
            [.logLine ("Could not populate the outline view: " ++ err),
             .showErrorMessageOpenLog])
      | .ok outline => getChildrenReturn { s with roots := outline.nested } element
    else getChildrenReturn s element

/-- One step of the first phase of onTestResult (source lines 215 to
224): look the result name up in the discovery index; if a node is
found and its running field is true, clear running, attach the result,
record the key as settled, and fire a targeted invalidation. -/
def processResult (acc : ProviderState × List String) (result : TestResult) :
    ProviderState × List String :=
  let s := acc.1
  let inResults := acc.2
  match mapGet s.discoveredTestsMap result.testName with
  | none => (s, inResults)
  | some testNode =>
    if testNode.id ∈ s.running then
      ({ s with running := setRunningFalse s.running testNode.id,
                nodeResult := resultSet s.nodeResult testNode.id result,
                fired := s.fired ++ [some testNode.id] },
       inResults ++ [testNode.key])
    else (s, inResults)

/-- The sweep step of onTestResult (source lines 227 to 230): force the
running field of the node to false and fire a targeted invalidation. -/
def sweepRunningFalse (st : ProviderState) (testNode : GinkgoNode) : ProviderState :=
  { st with running := setRunningFalse st.running testNode.id,
            fired := st.fired ++ [some testNode.id] }

/-- onTestResult (source lines 213 to 231): process every result of the
batch in order, then sweep the discovered list, forcing running to
false (with a targeted invalidation) on every node still running whose
key was not settled in this batch. -/
def onTestResult (testResults : List TestResult) (s : ProviderState) : ProviderState :=
  let p := testResults.foldl processResult (s, [])
  let s1 := p.1
  let inResults := p.2
  (s1.discoveredTests.filter
      (fun t => !(t.key ∈ inResults : Bool) && (t.id ∈ s1.running : Bool))).foldl
    sweepRunningFalse s1

/-!  Concrete fixtures used by closed witness theorems. -/

/-- A sample Go test document. -/
def exDoc : TextDocument := { uri := "file:///sample/sample_test.go", languageId := "go" }

/-- A main editor showing the sample document. -/
def exEditor : Editor := { document := exDoc, viewColumn := some 1 }

/-- A provider state with the sample editor tracked and everything else
in its initial configuration. -/
def baseState : ProviderState :=
  { editor := some exEditor,
    roots := [],
    discoveredTests := [],
    discoveredTestsMap := [],
    rootNode := none,
    lastClickedNode := none,
    lastClickedTime := none,
    documentChangedTimer := none,
    updateOn := .onType,
    updateOnTypeDelay := 300,
    doubleClickThreshold := 400,
    running := [],
    nodeResult := [],
    fired := [] }

/-- A leaf spec node. -/
def leafA : GinkgoNode := .mk 1 "r/c/a" "It" "does a" 10 20 true false []

/-- A second leaf spec node. -/
def leafB : GinkgoNode := .mk 2 "r/c/b" "It" "does b" 30 40 true false []

/-- A container node holding the two leaves. -/
def containerC : GinkgoNode := .mk 3 "r/c" "Describe" "c" 5 45 false false [leafA, leafB]

/-- The root node of the sample outline. -/
def rootR : GinkgoNode := .mk 4 "r" "root" "r" 0 50 false false [containerC]

/-- The flattened discovered set of the sample outline. -/
def exDiscovered : List GinkgoNode := [rootR, containerC, leafA, leafB]

/-- A provider state that has processed a discovery event for the
sample outline. -/
def exDiscState : ProviderState :=
  { baseState with
      discoveredTests := exDiscovered,
      discoveredTestsMap := buildDiscoveredMap exDiscovered,
      rootNode := some rootR }

/-- The sample discovery state with both leaves marked running. -/
def exRunningState : ProviderState := { exDiscState with running := [1, 2] }

/-- A passing result for the first leaf. -/
def exResult : TestResult := { testName := "r/c/a", isPassed := true, output := none }

/-- The sample state with a pending debounce timer due at time 5. -/
def exTimerState : ProviderState := { baseState with documentChangedTimer := some 5 }

/-- The sample state with no tracked editor. -/
def exNoEditorState : ProviderState := { baseState with editor := none }

/-- The sample state remembering a click on the first leaf at time 100. -/
def exClickedState : ProviderState :=
  { baseState with lastClickedNode := some leafA, lastClickedTime := some 100 }

/-- A sample document-changed event for the tracked sample document. -/
def exChange : TextDocumentChangeEvent := { document := exDoc, contentChanges := 1 }

/-- One provider state extends another: same discovered list, no tag
leaves the running set, no emitted event disappears. -/
def StateExtends (s t : ProviderState) : Prop :=
  t.discoveredTests = s.discoveredTests ∧
  (∀ i, i ∈ s.running → i ∈ t.running) ∧
  (∀ e, e ∈ s.fired → e ∈ t.fired)

/-!  General lemmas about the association-list rendering of Map. -/

/-- Looking a key up in an empty map yields nothing. -/
theorem mapGet_nil (k : String) : mapGet [] k = none := rfl

/-- Map.set followed by Map.get: the written key reads back the new
value, every other key is unaffected. -/
theorem mapGet_mapSet (m : List (String × GinkgoNode)) (k : String) (v : GinkgoNode)
    (k2 : String) :
    mapGet (mapSet m k v) k2 = if k2 = k then some v else mapGet m k2 := by
  induction m with
  | nil =>
    by_cases h : k2 = k
    · subst h; simp [mapSet, mapGet]
    · have hb : (k == k2) = false := beq_false_of_ne (Ne.symm h)
      simp [mapSet, mapGet, List.find?, hb, h]
  | cons a rest ih =>
    obtain ⟨k1, v1⟩ := a
    by_cases h1 : k1 = k
    · subst h1
      by_cases h2 : k2 = k1
      · subst h2; simp [mapSet, mapGet]
      · have hb : (k1 == k2) = false := beq_false_of_ne (fun h => h2 h.symm)
        simp [mapSet, mapGet, List.find?, hb, h2]
    · by_cases h2 : k2 = k1
      · subst h2
        have hne : ¬ k2 = k := fun h => h1 h
        have hb1 : (k2 == k) = false := beq_false_of_ne hne
        simp [mapSet, mapGet, List.find?, hb1, hne]
      · have hb1 : (k1 == k) = false := beq_false_of_ne h1
        have hb2 : (k1 == k2) = false := beq_false_of_ne (fun h => h2 h.symm)
        simp only [mapSet, mapGet, List.find?, hb1, hb2] at *
        simpa using ih

/-- Every binding reachable in the rebuilt discovery index, starting
from any initial map, comes from the node list or from the initial map. -/
theorem buildAux_mem (l : List GinkgoNode) :
    ∀ (m : List (String × GinkgoNode)) (k : String) (n : GinkgoNode),
    mapGet (l.foldl (fun m n => mapSet m n.key n) m) k = some n →
    (n ∈ l ∧ n.key = k) ∨ mapGet m k = some n := by
  induction l with
  | nil => intro m k n h; exact Or.inr h
  | cons a rest ih =>
    intro m k n h
    simp only [List.foldl_cons] at h
    rcases ih _ _ _ h with ⟨hm, hk⟩ | h2
    · exact Or.inl ⟨List.mem_cons_of_mem _ hm, hk⟩
    · rw [mapGet_mapSet] at h2
      by_cases hk : k = a.key
      · subst hk
        simp at h2
        subst h2
        exact Or.inl ⟨List.mem_cons_self _ _, rfl⟩
      · rw [if_neg hk] at h2
        exact Or.inr h2

/-- Keys absent from the node list are untouched by the index rebuild. -/
theorem buildAux_untouched (l : List GinkgoNode) :
    ∀ (m : List (String × GinkgoNode)) (k : String),
    k ∉ l.map GinkgoNode.key →
    mapGet (l.foldl (fun m n => mapSet m n.key n) m) k = mapGet m k := by
  induction l with
  | nil => intro m k _; rfl
  | cons a rest ih =>
    intro m k hk
    simp only [List.map_cons, List.mem_cons, not_or] at hk
    simp only [List.foldl_cons]
    rw [ih _ _ hk.2, mapGet_mapSet, if_neg hk.1]

/-- With pairwise distinct keys, every listed node reads back from the
rebuilt index under its own key, whatever the initial map was. -/
theorem buildAux_self (l : List GinkgoNode) :
    ∀ (m : List (String × GinkgoNode)) (n : GinkgoNode),
    (l.map GinkgoNode.key).Nodup → n ∈ l →
    mapGet (l.foldl (fun m n => mapSet m n.key n) m) n.key = some n := by
  induction l with
  | nil => intro m n _ h; cases h
  | cons a rest ih =>
    intro m n hnd hn
    simp only [List.map_cons, List.nodup_cons] at hnd
    simp only [List.foldl_cons]
    rcases List.mem_cons.mp hn with rfl | hn2
    · rw [buildAux_untouched rest _ _ hnd.1, mapGet_mapSet, if_pos rfl]
    · exact ih _ _ hnd.2 hn2

/-- Bindings of the rebuilt discovery index come exactly from the list
it was built from. -/
theorem mapGet_buildDiscoveredMap_some (l : List GinkgoNode) (k : String)
    (n : GinkgoNode) (h : mapGet (buildDiscoveredMap l) k = some n) :
    n ∈ l ∧ n.key = k := by
  rcases buildAux_mem l [] k n h with h2 | h2
  · exact h2
  · cases h2

/-- With pairwise distinct keys, every listed node reads back from the
rebuilt discovery index under its own key. -/
theorem mapGet_buildDiscoveredMap_self (l : List GinkgoNode) (n : GinkgoNode)
    (hnd : (l.map GinkgoNode.key).Nodup) (hn : n ∈ l) :
    mapGet (buildDiscoveredMap l) n.key = some n :=
  buildAux_self l [] n hnd hn

/-- The wholesale-replacement conditional of onDicoveredTest evaluates
to the incoming list in both of its branches. -/
theorem discoveredOf_eq (nodes : List GinkgoNode) :
    (if nodes.length > 0 then nodes else []) = nodes := by
  cases nodes <;> simp

/-- C1: after two discovery events D1 then D2, the discovery index maps
exactly the keys of the nodes of the D2 set to those nodes (with unique
keys every D2 node reads back under its own key, and every reachable
binding is a D2 node under its key), no node instance of D1 (one whose
identity tag does not occur in D2) is reachable via the index, the
stored flattened set is the D2 set, and the root reference is the first
D2 node satisfying the root predicate, or none when no node does. -/
theorem onDicoveredTest_rebuild (isRootNode : GinkgoNode → Bool)
    (nodes1 nodes2 : List GinkgoNode) (s : ProviderState)
    (s2 : ProviderState)
    (hs2 : s2 = onDicoveredTest isRootNode nodes2 (onDicoveredTest isRootNode nodes1 s)) :
    (∀ k n, mapGet s2.discoveredTestsMap k = some n → n ∈ nodes2 ∧ n.key = k) ∧
    ((nodes2.map GinkgoNode.key).Nodup →
      ∀ n ∈ nodes2, mapGet s2.discoveredTestsMap n.key = some n) ∧
    s2.rootNode = nodes2.find? isRootNode ∧
    s2.discoveredTests = nodes2 ∧
    (∀ n1 ∈ nodes1, n1.id ∉ nodes2.map GinkgoNode.id →
      ∀ k, ¬ (mapGet s2.discoveredTestsMap k = some n1)) := by
  have hmap : s2.discoveredTestsMap = buildDiscoveredMap nodes2 := by
    rw [hs2]
    simp only [onDicoveredTest, discoveredOf_eq]
  refine ⟨?_, ?_, ?_, ?_, ?_⟩
  · intro k n h
    rw [hmap] at h
    exact mapGet_buildDiscoveredMap_some nodes2 k n h
  · intro hnd n hn
    rw [hmap]
    exact mapGet_buildDiscoveredMap_self nodes2 n hnd hn
  · rw [hs2]; simp only [onDicoveredTest]
  · rw [hs2]; simp only [onDicoveredTest, discoveredOf_eq]
  · intro n1 hn1 hid k h
    rw [hmap] at h
    have hmem := (mapGet_buildDiscoveredMap_some nodes2 k n1 h).1
    exact hid (List.mem_map_of_mem GinkgoNode.id hmem)

/-- Witness for C1 at the sample outline: discovering the single leaf
and then the full sample set leaves the container readable under its
key, the root reference on the sample root, and the previously
discovered leaf copy with the stale tag 9 unreachable. -/
theorem onDicoveredTest_rebuild_witness :
    mapGet (onDicoveredTest (fun n => n.name == "root") exDiscovered
        (onDicoveredTest (fun n => n.name == "root")
          [GinkgoNode.mk 9 "r/c/a" "It" "does a" 10 20 true false []]
          baseState)).discoveredTestsMap "r/c" = some containerC ∧
    (onDicoveredTest (fun n => n.name == "root") exDiscovered
        (onDicoveredTest (fun n => n.name == "root")
          [GinkgoNode.mk 9 "r/c/a" "It" "does a" 10 20 true false []]
          baseState)).rootNode = some rootR ∧
    ¬ (mapGet (onDicoveredTest (fun n => n.name == "root") exDiscovered
        (onDicoveredTest (fun n => n.name == "root")
          [GinkgoNode.mk 9 "r/c/a" "It" "does a" 10 20 true false []]
          baseState)).discoveredTestsMap "r/c/a" =
      some (GinkgoNode.mk 9 "r/c/a" "It" "does a" 10 20 true false [])) := by
  have h := onDicoveredTest_rebuild (fun n => n.name == "root")
    [GinkgoNode.mk 9 "r/c/a" "It" "does a" 10 20 true false []] exDiscovered
    baseState _ rfl
  refine ⟨?_, ?_, ?_⟩
  · have := h.2.1 (by decide) containerC
      (by exact List.mem_cons_of_mem _ (List.mem_cons_self _ _))
    simpa [containerC, GinkgoNode.key] using this
  · have := h.2.2.1
    rw [this]
    rfl
  · exact h.2.2.2.2 _ (List.mem_cons_self _ _) (by decide) "r/c/a"

/-- C8: a result whose name misses the discovery index, or whose found
node is not running, is dropped: the per-result step of onTestResult
returns the state and the settled-key list unchanged, fires nothing,
and completes normally (the step is a total function). -/
theorem processResult_dropped (result : TestResult) (s : ProviderState)
    (inResults : List String)
    (h : ∀ n, mapGet s.discoveredTestsMap result.testName = some n → n.id ∉ s.running) :
    processResult (s, inResults) result = (s, inResults) := by
  cases hm : mapGet s.discoveredTestsMap result.testName with
  | none => simp [processResult, hm]
  | some n => simp [processResult, hm, h n hm]

/-- Witness for C8: a result for an unknown name on the sample running
state is dropped. -/
theorem processResult_dropped_witness :
    processResult (exRunningState, []) { testName := "ghost", isPassed := false, output := none } =
      (exRunningState, []) := by
  refine processResult_dropped _ _ _ ?_
  intro n hn
  have hnone : mapGet exRunningState.discoveredTestsMap "ghost" = none := rfl
  rw [hnone] at hn
  cases hn

/-- C10: a click event arriving while no editor is tracked returns at
once: the state (in particular lastClickedNode and lastClickedTime) is
unchanged and no editor effect, single or double, is requested. -/
theorem clickTreeItem_no_editor (element : GinkgoNode) (now : Int) (s : ProviderState)
    (h : s.editor = none) : clickTreeItem element now s = (s, []) := by
  unfold clickTreeItem
  rw [h]

/-- Witness for C10: clicking the first leaf at time 5 in the sample
state without an editor changes nothing. -/
theorem clickTreeItem_no_editor_witness :
    clickTreeItem leafA 5 exNoEditorState = (exNoEditorState, []) :=
  clickTreeItem_no_editor leafA 5 exNoEditorState rfl

/-- C5, counterexample: in the sample state with a debounce timer
pending for time 5, an active-editor-changed event to an undefined
editor leaves the timer pending, refuting the claim that the pending
debounce timer is cancelled by this event. -/
theorem onActiveEditorChanged_keeps_timer :
    ¬ ((onActiveEditorChanged none exTimerState).documentChangedTimer = none) := by
  intro h
  simp only [onActiveEditorChanged, exTimerState] at h
  cases h

/-- C5, amended: an active-editor-changed event to a main editor or to
an undefined editor replaces the tracked editor, drops the cached
outline, and fires one unscoped tree-changed signal, while the pending
debounce timer is left untouched, not cancelled; an event to a defined
non-main editor leaves the whole state unchanged. -/
theorem onActiveEditorChanged_spec (editor : Option Editor) (s : ProviderState) :
    ((∀ e, editor = some e → isMainEditor e = true) →
      onActiveEditorChanged editor s =
        { s with editor := editor, roots := [], fired := s.fired ++ [none] }) ∧
    (onActiveEditorChanged editor s).documentChangedTimer = s.documentChangedTimer ∧
    (∀ e, editor = some e → isMainEditor e = false →
      onActiveEditorChanged editor s = s) := by
  refine ⟨?_, ?_, ?_⟩
  · intro h
    cases editor with
    | none => rfl
    | some e => simp [onActiveEditorChanged, h e rfl]
  · cases editor with
    | none => rfl
    | some e =>
      by_cases hm : isMainEditor e = true
      · simp [onActiveEditorChanged, hm]
      · simp only [Bool.not_eq_true] at hm
        simp [onActiveEditorChanged, hm]
  · intro e he hm
    subst he
    simp [onActiveEditorChanged, hm]

/-- Witness for the amended C5: the event to an undefined editor on the
sample timer state drops the outline and fires a full refresh while
keeping the timer, and an event to a non-main editor changes nothing. -/
theorem onActiveEditorChanged_spec_witness :
    onActiveEditorChanged none exTimerState =
      { exTimerState with editor := none, roots := [], fired := exTimerState.fired ++ [none] } ∧
    onActiveEditorChanged
        (some { document := exDoc, viewColumn := none }) exTimerState = exTimerState :=
  ⟨(onActiveEditorChanged_spec none exTimerState).1 (fun e h => by cases h),
   (onActiveEditorChanged_spec (some { document := exDoc, viewColumn := none })
      exTimerState).2.2 { document := exDoc, viewColumn := none } rfl rfl⟩

/-- C9: a tree-data read with an empty outline cache whose parse fails
leaves the state (and so the empty cache) unchanged, answers the read
with no data rather than raising, and requests a log line together with
the user-visible error notification carrying the Open Log affordance;
the read is a total function, so no failure escapes the boundary. -/
theorem getChildren_parse_failure
    (outlineFromDoc : TextDocument → Except String GinkgoOutline)
    (element : Option GinkgoNode) (s : ProviderState) (e : Editor) (msg : String)
    (hed : s.editor = some e) (hlang : e.document.languageId = goLanguage)
    (hroots : s.roots = []) (herr : outlineFromDoc e.document = .error msg) :
    getChildren outlineFromDoc element s =
      (s, none,
        [.logLine ("Could not populate the outline view: " ++ msg),
         .showErrorMessageOpenLog]) := by
  unfold getChildren
  rw [hed]
  simp [hlang, hroots, herr]

/-- Witness for C9: a parser that always fails, read on the sample
state with its empty cache. -/
theorem getChildren_parse_failure_witness :
    getChildren (fun _ => .error "parse failed") none baseState =
      (baseState, none,
        [.logLine ("Could not populate the outline view: " ++ "parse failed"),
         .showErrorMessageOpenLog]) :=
  getChildren_parse_failure (fun _ => .error "parse failed") none baseState
    exEditor "parse failed" rfl rfl rfl rfl

/-- C4: a click on node N at time T with a tracked editor updates
lastClickedNode and lastClickedTime to N and T unconditionally, requests
the double-click effects (caret to the start of N, highlight off, focus
back to the editor) exactly when a previous click exists whose node has
the same span as N, start and end alike, and whose time is less than
doubleClickThreshold before T, and otherwise requests only the transient
highlight; the previous-click times stored by the handler come from the
wall clock and are assumed positive, matching the truthiness test of
the source. -/
theorem clickTreeItem_spec (element : GinkgoNode) (now : Int) (s : ProviderState)
    (e : Editor) (hed : s.editor = some e)
    (hpos : ∀ t, s.lastClickedTime = some t → 0 < t) :
    (clickTreeItem element now s).1.lastClickedNode = some element ∧
    (clickTreeItem element now s).1.lastClickedTime = some now ∧
    ((clickTreeItem element now s).2 =
        [EditorEffect.setSelectionToNodeStart element.id, EditorEffect.highlightOff,
         EditorEffect.focusActiveEditorGroup] ↔
      (∃ ln lt, s.lastClickedNode = some ln ∧ s.lastClickedTime = some lt ∧
        ln.start = element.start ∧ ln.end_ = element.end_ ∧
        now - lt < s.doubleClickThreshold)) ∧
    ((clickTreeItem element now s).2 =
        [EditorEffect.setSelectionToNodeStart element.id, EditorEffect.highlightOff,
         EditorEffect.focusActiveEditorGroup] ∨
      (clickTreeItem element now s).2 = [EditorEffect.highlightNode element.id]) := by
  cases hlt : s.lastClickedTime with
  | none =>
    refine ⟨by simp [clickTreeItem, hed, hlt], by simp [clickTreeItem, hed, hlt], ?_,
      Or.inr (by simp [clickTreeItem, hed, hlt])⟩
    constructor
    · intro h
      simp [clickTreeItem, hed, hlt] at h
    · rintro ⟨ln2, lt2, -, h2, -⟩
      cases h2
  | some lt =>
    cases hln : s.lastClickedNode with
    | none =>
      refine ⟨by simp [clickTreeItem, hed, hlt, hln],
        by simp [clickTreeItem, hed, hlt, hln], ?_,
        Or.inr (by simp [clickTreeItem, hed, hlt, hln])⟩
      constructor
      · intro h
        simp [clickTreeItem, hed, hlt, hln] at h
      · rintro ⟨ln2, lt2, h1, -⟩
        cases h1
    | some ln =>
      have hlt0 : (lt != 0) = true := by
        simp only [bne_iff_ne, ne_eq]
        exact (hpos lt hlt).ne'
      cases hw : wasRecentlyClicked s.doubleClickThreshold ln lt element now with
      | false =>
        refine ⟨by simp [clickTreeItem, hed, hlt, hln, hlt0, hw],
          by simp [clickTreeItem, hed, hlt, hln, hlt0, hw], ?_,
          Or.inr (by simp [clickTreeItem, hed, hlt, hln, hlt0, hw])⟩
        constructor
        · intro h
          simp [clickTreeItem, hed, hlt, hln, hlt0, hw] at h
        · rintro ⟨ln2, lt2, h1, h2, h3, h4, h5⟩
          injection h1 with h1
          injection h2 with h2
          subst h1
          subst h2
          have htrue : wasRecentlyClicked s.doubleClickThreshold ln lt element now = true := by
            simp [wasRecentlyClicked, h3, h4, h5]
          rw [hw] at htrue
          cases htrue
      | true =>
        have hw2 := hw
        simp only [wasRecentlyClicked, Bool.and_eq_true, beq_iff_eq,
          decide_eq_true_eq] at hw2
        refine ⟨by simp [clickTreeItem, hed, hlt, hln, hlt0, hw],
          by simp [clickTreeItem, hed, hlt, hln, hlt0, hw], ?_,
          Or.inl (by simp [clickTreeItem, hed, hlt, hln, hlt0, hw])⟩
        constructor
        · intro _
          exact ⟨ln, lt, rfl, rfl, hw2.1.1, hw2.1.2, hw2.2⟩
        · intro _
          simp [clickTreeItem, hed, hlt, hln, hlt0, hw]

/-- Witness for C4: in the sample state remembering a click on the
first leaf at time 100, clicking the same leaf at time 300 with the
threshold at 400 updates the click state and requests the double-click
effects. -/
theorem clickTreeItem_spec_witness :
    (clickTreeItem leafA 300 exClickedState).1.lastClickedNode = some leafA ∧
    (clickTreeItem leafA 300 exClickedState).2 =
      [EditorEffect.setSelectionToNodeStart leafA.id, EditorEffect.highlightOff,
       EditorEffect.focusActiveEditorGroup] := by
  have h := clickTreeItem_spec leafA 300 exClickedState exEditor rfl
    (by intro t ht
        have h100 : some (100 : Int) = some t := ht
        injection h100 with h100
        rw [← h100]
        decide)
  exact ⟨h.1, h.2.2.1.mpr ⟨leafA, 100, rfl, rfl, rfl, rfl, by decide⟩⟩

/-- In onType mode, a document-changed event for the tracked document
with at least one content change drops the outline cache and replaces
the pending timer, whatever it was, by one due a full delay after now. -/
theorem dispatchDocumentChanged_onType (now : Nat) (evt : TextDocumentChangeEvent)
    (s : ProviderState) (hup : s.updateOn = .onType)
    (hdoc : isDocumentForActiveEditor s evt.document = true)
    (hch : evt.contentChanges ≠ 0) :
    dispatchDocumentChanged now evt s =
      { s with roots := [],
               documentChangedTimer := some (now + s.updateOnTypeDelay) } := by
  unfold dispatchDocumentChanged
  rw [hup]
  unfold onDocumentChanged
  rw [hdoc]
  cases ht : s.documentChangedTimer <;> simp [hch, ht, hup]

/-- A pending timer due strictly after now does not fire at now. -/
theorem fireTimerIfDue_not_due (now ft : Nat) (s : ProviderState)
    (htimer : s.documentChangedTimer = some ft) (hlt : now < ft) :
    fireTimerIfDue now s = s := by
  have hn : ¬ (ft ≤ now) := by omega
  simp [fireTimerIfDue, htimer, hn]

/-- With a pending timer a full delay after some previous event, a run
of further document-changed events for the tracked document, each
strictly later than, and less than one delay after, its predecessor,
fires no signal; each event only replaces the pending timer, leaving a
single timer due one delay after the last event. -/
theorem runDocChangedTrace_pending (events : List (Nat × TextDocumentChangeEvent)) :
    ∀ (s : ProviderState) (tprev : Nat),
    s.updateOn = .onType →
    s.documentChangedTimer = some (tprev + s.updateOnTypeDelay) →
    (∀ te ∈ events, isDocumentForActiveEditor s te.2.document = true ∧
      te.2.contentChanges ≠ 0) →
    List.Chain (fun a b => a < b ∧ b < a + s.updateOnTypeDelay) tprev
      (events.map Prod.fst) →
    (runDocChangedTrace events s).fired = s.fired ∧
    (runDocChangedTrace events s).documentChangedTimer =
      some ((events.map Prod.fst).getLastD tprev + s.updateOnTypeDelay) := by
  induction events with
  | nil =>
    intro s tprev hup htimer hev hchain
    exact ⟨rfl, htimer⟩
  | cons te rest ih =>
    intro s tprev hup htimer hev hchain
    obtain ⟨t, evt⟩ := te
    simp only [List.map_cons, List.chain_cons] at hchain
    obtain ⟨⟨hlt1, hlt2⟩, hchain2⟩ := hchain
    have hfire : fireTimerIfDue t s = s :=
      fireTimerIfDue_not_due t (tprev + s.updateOnTypeDelay) s htimer hlt2
    have hev1 := hev (t, evt) (List.mem_cons_self _ _)
    have hstep : dispatchDocumentChanged t evt s =
        { s with roots := [], documentChangedTimer := some (t + s.updateOnTypeDelay) } :=
      dispatchDocumentChanged_onType t evt s hup hev1.1 hev1.2
    have htrace : runDocChangedTrace ((t, evt) :: rest) s =
        runDocChangedTrace rest
          { s with roots := [], documentChangedTimer := some (t + s.updateOnTypeDelay) } := by
      unfold runDocChangedTrace
      rw [List.foldl_cons, hfire, hstep]
    rw [htrace]
    have hresult := ih
      { s with roots := [], documentChangedTimer := some (t + s.updateOnTypeDelay) }
      t hup rfl
      (fun te2 hmem => hev te2 (List.mem_cons_of_mem _ hmem))
      hchain2
    refine ⟨hresult.1, ?_⟩
    rw [hresult.2, List.map_cons, List.getLastD_cons]

/-- C3: in onType mode with no timer pending, a burst of N rapid
document-changed events for the tracked document, each strictly later
than and less than one delay after its predecessor, produces no signal
while the burst runs and leaves exactly one pending timer, due one
delay after the last event; letting that timer expire produces exactly
one unscoped tree-changed signal in total for the whole burst.  Each
event cancels and replaces the previously pending timer, and the single
optional timer handle can never hold more than one pending timer. -/
theorem onType_debounce_law (s : ProviderState)
    (first : Nat × TextDocumentChangeEvent)
    (rest : List (Nat × TextDocumentChangeEvent))
    (hup : s.updateOn = .onType)
    (htimer : s.documentChangedTimer = none)
    (hev : ∀ te ∈ first :: rest, isDocumentForActiveEditor s te.2.document = true ∧
      te.2.contentChanges ≠ 0)
    (hchain : List.Chain (fun a b => a < b ∧ b < a + s.updateOnTypeDelay) first.1
      (rest.map Prod.fst)) :
    (runDocChangedTrace (first :: rest) s).fired = s.fired ∧
    (runDocChangedTrace (first :: rest) s).documentChangedTimer =
      some ((rest.map Prod.fst).getLastD first.1 + s.updateOnTypeDelay) ∧
    (flushPendingTimer (runDocChangedTrace (first :: rest) s)).fired =
      s.fired ++ [none] ∧
    (flushPendingTimer (runDocChangedTrace (first :: rest) s)).documentChangedTimer =
      none := by
  obtain ⟨t, evt⟩ := first
  have hfire : fireTimerIfDue t s = s := by
    unfold fireTimerIfDue
    rw [htimer]
  have hev1 := hev (t, evt) (List.mem_cons_self _ _)
  have hstep : dispatchDocumentChanged t evt s =
      { s with roots := [], documentChangedTimer := some (t + s.updateOnTypeDelay) } :=
    dispatchDocumentChanged_onType t evt s hup hev1.1 hev1.2
  have htrace : runDocChangedTrace ((t, evt) :: rest) s =
      runDocChangedTrace rest
        { s with roots := [], documentChangedTimer := some (t + s.updateOnTypeDelay) } := by
    unfold runDocChangedTrace
    rw [List.foldl_cons, hfire, hstep]
  have hresult := runDocChangedTrace_pending rest
    { s with roots := [], documentChangedTimer := some (t + s.updateOnTypeDelay) }
    t hup rfl
    (fun te2 hmem => hev te2 (List.mem_cons_of_mem _ hmem))
    hchain
  rw [htrace]
  have hfired := hresult.1
  have htimer2 := hresult.2
  refine ⟨hfired, by rw [htimer2], ?_, ?_⟩
  · unfold flushPendingTimer
    rw [htimer2]
    simp [hfired]
  · unfold flushPendingTimer
    rw [htimer2]

/-- Witness for C3: three rapid edits at times 1000, 1100 and 1200 with
the 300 millisecond delay fire nothing during the burst, leave one
timer due at 1500, and flushing it yields exactly one unscoped signal. -/
theorem onType_debounce_law_witness :
    (runDocChangedTrace [(1000, exChange), (1100, exChange), (1200, exChange)]
        baseState).fired = [] ∧
    (runDocChangedTrace [(1000, exChange), (1100, exChange), (1200, exChange)]
        baseState).documentChangedTimer = some 1500 ∧
    (flushPendingTimer (runDocChangedTrace
        [(1000, exChange), (1100, exChange), (1200, exChange)] baseState)).fired =
      [none] := by
  have h := onType_debounce_law baseState (1000, exChange)
    [(1100, exChange), (1200, exChange)] rfl rfl
    (by intro te hmem; fin_cases hmem <;> exact ⟨rfl, by decide⟩)
    (by
      refine List.Chain.cons ⟨?_, ?_⟩ (List.Chain.cons ⟨?_, ?_⟩ List.Chain.nil) <;> decide)
  exact ⟨h.1, h.2.1, h.2.2.1⟩

/-!  Supporting lemmas for the reconciliation proofs. -/

/-- Membership after clearing the running field of tag i. -/
theorem mem_setRunningFalse (l : List Nat) (i j : Nat) :
    j ∈ setRunningFalse l i ↔ j ∈ l ∧ j ≠ i := by
  simp [setRunningFalse]

/-- Membership after setting the running field of tag i. -/
theorem mem_setRunningTrue (l : List Nat) (i j : Nat) :
    j ∈ setRunningTrue l i ↔ j ∈ l ∨ j = i := by
  unfold setRunningTrue
  by_cases h : i ∈ l
  · rw [if_pos h]
    constructor
    · exact Or.inl
    · rintro (hj | rfl)
      · exact hj
      · exact h
  · rw [if_neg h]
    simp [List.mem_cons, or_comm]

/-- Writing the result field of tag i then reading tag j: the written
tag reads back the new result, every other tag is unaffected. -/
theorem resultGet_resultSet (rs : List (Nat × TestResult)) (i : Nat) (r : TestResult)
    (j : Nat) :
    resultGet (resultSet rs i r) j = if j = i then some r else resultGet rs j := by
  induction rs with
  | nil =>
    by_cases h : j = i
    · subst h; simp [resultSet, resultGet]
    · have hb : (i == j) = false := beq_false_of_ne (Ne.symm h)
      simp [resultSet, resultGet, List.find?, hb, h]
  | cons a rest ih =>
    obtain ⟨k1, r1⟩ := a
    by_cases h1 : k1 = i
    · subst h1
      by_cases h2 : j = k1
      · subst h2; simp [resultSet, resultGet]
      · have hb : (k1 == j) = false := beq_false_of_ne (fun h => h2 h.symm)
        simp [resultSet, resultGet, List.find?, hb, h2]
    · by_cases h2 : j = k1
      · subst h2
        have hne : ¬ j = i := fun h => h1 h
        have hb1 : (j == i) = false := beq_false_of_ne hne
        simp [resultSet, resultGet, List.find?, hb1, hne]
      · have hb1 : (k1 == i) = false := beq_false_of_ne h1
        have hb2 : (k1 == j) = false := beq_false_of_ne (fun h => h2 h.symm)
        simp only [resultSet, resultGet, List.find?, hb1, hb2] at *
        simpa using ih

/-- Appending an invalidation for the same payload raises its count by
one. -/
theorem count_append_self (l : List (Option Nat)) (x : Option Nat) :
    (l ++ [x]).count x = l.count x + 1 := by
  simp

/-- Appending an invalidation for a different payload leaves the count
of a payload unchanged. -/
theorem count_append_ne (l : List (Option Nat)) (x y : Option Nat) (h : y ≠ x) :
    (l ++ [y]).count x = l.count x := by
  simp [List.count_append, List.count_singleton, h]

/-- Behaviour of the first phase of onTestResult at one fixed discovered
node n, for any starting accumulator.  With the index rebuilt from the
discovered list and pairwise distinct keys and tags: the discovered
list and the index are untouched; a running node whose key has a first
matching result ends settled, with that result attached, its key
recorded, and exactly one targeted invalidation fired; a running node
with no matching result is untouched by this phase; a node that is not
running is untouched by this phase. -/
theorem phase1_node_spec (results : List TestResult) :
    ∀ (s : ProviderState) (inR : List String) (n : GinkgoNode),
    s.discoveredTestsMap = buildDiscoveredMap s.discoveredTests →
    (s.discoveredTests.map GinkgoNode.key).Nodup →
    (s.discoveredTests.map GinkgoNode.id).Nodup →
    n ∈ s.discoveredTests →
    (results.foldl processResult (s, inR)).1.discoveredTests = s.discoveredTests ∧
    (results.foldl processResult (s, inR)).1.discoveredTestsMap = s.discoveredTestsMap ∧
    (n.id ∈ s.running →
      (∀ r0, results.find? (fun r => r.testName == n.key) = some r0 →
        n.id ∉ (results.foldl processResult (s, inR)).1.running ∧
        n.key ∈ (results.foldl processResult (s, inR)).2 ∧
        resultGet (results.foldl processResult (s, inR)).1.nodeResult n.id = some r0 ∧
        (results.foldl processResult (s, inR)).1.fired.count (some n.id) =
          s.fired.count (some n.id) + 1) ∧
      (results.find? (fun r => r.testName == n.key) = none →
        n.id ∈ (results.foldl processResult (s, inR)).1.running ∧
        (n.key ∈ (results.foldl processResult (s, inR)).2 ↔ n.key ∈ inR) ∧
        resultGet (results.foldl processResult (s, inR)).1.nodeResult n.id =
          resultGet s.nodeResult n.id ∧
        (results.foldl processResult (s, inR)).1.fired.count (some n.id) =
          s.fired.count (some n.id))) ∧
    (n.id ∉ s.running →
      n.id ∉ (results.foldl processResult (s, inR)).1.running ∧
      (n.key ∈ (results.foldl processResult (s, inR)).2 ↔ n.key ∈ inR) ∧
      resultGet (results.foldl processResult (s, inR)).1.nodeResult n.id =
        resultGet s.nodeResult n.id ∧
      (results.foldl processResult (s, inR)).1.fired.count (some n.id) =
        s.fired.count (some n.id)) := by
  induction results with
  | nil =>
    intro s inR n hmap hkeys hids hn
    refine ⟨rfl, rfl, ?_, ?_⟩
    · intro hrun
      refine ⟨?_, ?_⟩
      · intro r0 h0; cases h0
      · intro _; exact ⟨hrun, Iff.rfl, rfl, rfl⟩
    · intro hnot
      exact ⟨hnot, Iff.rfl, rfl, rfl⟩
  | cons r rest ih =>
    intro s inR n hmap hkeys hids hn
    simp only [List.foldl_cons]
    have hself : mapGet s.discoveredTestsMap n.key = some n := by
      rw [hmap]; exact mapGet_buildDiscoveredMap_self _ n hkeys hn
    cases hm : mapGet s.discoveredTestsMap r.testName with
    | none =>
      have hstep : processResult (s, inR) r = (s, inR) := by
        simp [processResult, hm]
      rw [hstep]
      have hkeq : r.testName ≠ n.key := by
        intro h; rw [h, hself] at hm; cases hm
      have hne : (r.testName == n.key) = false := beq_false_of_ne hkeq
      have hfind : List.find? (fun r2 => r2.testName == n.key) (r :: rest) =
          List.find? (fun r2 => r2.testName == n.key) rest := by
        simp [List.find?_cons, hne]
      rw [hfind]
      exact ih s inR n hmap hkeys hids hn
    | some m =>
      have hm2 : mapGet (buildDiscoveredMap s.discoveredTests) r.testName = some m := by
        rw [← hmap]; exact hm
      obtain ⟨hmmem, hmkey⟩ := mapGet_buildDiscoveredMap_some _ _ _ hm2
      by_cases hid : m.id ∈ s.running
      · have hstep : processResult (s, inR) r =
            ({ s with running := setRunningFalse s.running m.id,
                      nodeResult := resultSet s.nodeResult m.id r,
                      fired := s.fired ++ [some m.id] }, inR ++ [m.key]) := by
          simp [processResult, hm, hid]
        rw [hstep]
        have ih1 := ih
          { s with running := setRunningFalse s.running m.id,
                   nodeResult := resultSet s.nodeResult m.id r,
                   fired := s.fired ++ [some m.id] }
          (inR ++ [m.key]) n hmap hkeys hids hn
        by_cases hkeq : r.testName = n.key
        · have hmn : m = n :=
            List.inj_on_of_nodup_map hkeys hmmem hn (by rw [hmkey, hkeq])
          obtain rfl := hmn
          have hfind : List.find? (fun r2 => r2.testName == m.key) (r :: rest) =
              some r := by
            simp [List.find?_cons, beq_iff_eq, hkeq]
          have hnotin1 : m.id ∉ setRunningFalse s.running m.id := by
            rw [mem_setRunningFalse]; simp
          obtain ⟨a1, b1, c1, d1⟩ := ih1.2.2.2 hnotin1
          refine ⟨ih1.1, ih1.2.1, ?_, ?_⟩
          · intro _
            refine ⟨?_, ?_⟩
            · intro r0 hr0
              rw [hfind] at hr0
              injection hr0 with hr0
              subst hr0
              refine ⟨a1, ?_, ?_, ?_⟩
              · exact b1.mpr (by simp)
              · rw [c1, resultGet_resultSet, if_pos rfl]
              · rw [d1]
                exact count_append_self _ _
            · intro h0
              rw [hfind] at h0
              cases h0
          · intro hnot
            exact absurd hid hnot
        · have hmkeyne : m.key ≠ n.key := by rw [hmkey]; exact hkeq
          have hmne : m ≠ n := fun h => hmkeyne (by rw [h])
          have hidne : m.id ≠ n.id :=
            fun h => hmne (List.inj_on_of_nodup_map hids hmmem hn h)
          have hrun1 : n.id ∈ setRunningFalse s.running m.id ↔ n.id ∈ s.running := by
            rw [mem_setRunningFalse]
            exact and_iff_left (Ne.symm hidne)
          have hres1 : resultGet (resultSet s.nodeResult m.id r) n.id =
              resultGet s.nodeResult n.id := by
            rw [resultGet_resultSet, if_neg (Ne.symm hidne)]
          have hcount1 : (s.fired ++ [some m.id]).count (some n.id) =
              s.fired.count (some n.id) :=
            count_append_ne _ _ _ (fun h => hidne (Option.some.inj h))
          have hkey1 : n.key ∈ inR ++ [m.key] ↔ n.key ∈ inR := by
            have := Ne.symm hmkeyne
            simp [List.mem_append, this]
          have hne : (r.testName == n.key) = false := beq_false_of_ne hkeq
          have hfind : List.find? (fun r2 => r2.testName == n.key) (r :: rest) =
              List.find? (fun r2 => r2.testName == n.key) rest := by
            simp [List.find?_cons, hne]
          rw [hfind]
          refine ⟨ih1.1, ih1.2.1, ?_, ?_⟩
          · intro hrun
            have hrun1m : n.id ∈ setRunningFalse s.running m.id := hrun1.mpr hrun
            obtain ⟨hA, hB⟩ := ih1.2.2.1 hrun1m
            refine ⟨?_, ?_⟩
            · intro r0 hr0
              obtain ⟨a, b, c, d⟩ := hA r0 hr0
              exact ⟨a, b, c, by rw [d, hcount1]⟩
            · intro h0
              obtain ⟨a, b, c, d⟩ := hB h0
              exact ⟨a, b.trans hkey1, c.trans hres1, d.trans hcount1⟩
          · intro hnot
            have hnot1 : n.id ∉ setRunningFalse s.running m.id :=
              fun h => hnot (hrun1.mp h)
            obtain ⟨a, b, c, d⟩ := ih1.2.2.2 hnot1
            exact ⟨a, b.trans hkey1, c.trans hres1, d.trans hcount1⟩
      · have hstep : processResult (s, inR) r = (s, inR) := by
          simp [processResult, hm, hid]
        rw [hstep]
        have ihr := ih s inR n hmap hkeys hids hn
        by_cases hkeq : r.testName = n.key
        · have hmn : m = n :=
            List.inj_on_of_nodup_map hkeys hmmem hn (by rw [hmkey, hkeq])
          obtain rfl := hmn
          refine ⟨ihr.1, ihr.2.1, ?_, ihr.2.2.2⟩
          intro hrun
          exact absurd hrun hid
        · have hne : (r.testName == n.key) = false := beq_false_of_ne hkeq
          have hfind : List.find? (fun r2 => r2.testName == n.key) (r :: rest) =
              List.find? (fun r2 => r2.testName == n.key) rest := by
            simp [List.find?_cons, hne]
          rw [hfind]
          exact ihr

/-- The sweep fold never touches the discovered list, the index, or the
result fields. -/
theorem sweepFold_frame (L : List GinkgoNode) : ∀ s : ProviderState,
    (L.foldl sweepRunningFalse s).discoveredTests = s.discoveredTests ∧
    (L.foldl sweepRunningFalse s).discoveredTestsMap = s.discoveredTestsMap ∧
    (L.foldl sweepRunningFalse s).nodeResult = s.nodeResult := by
  induction L with
  | nil => intro s; exact ⟨rfl, rfl, rfl⟩
  | cons t rest ih => intro s; exact ih (sweepRunningFalse s t)

/-- A tag carried by no node of the sweep list keeps its running state
and its invalidation count across the sweep fold. -/
theorem sweepFold_untouched (L : List GinkgoNode) : ∀ (s : ProviderState) (i : Nat),
    (∀ t ∈ L, t.id ≠ i) →
    (i ∈ (L.foldl sweepRunningFalse s).running ↔ i ∈ s.running) ∧
    (L.foldl sweepRunningFalse s).fired.count (some i) = s.fired.count (some i) := by
  induction L with
  | nil => intro s i _; exact ⟨Iff.rfl, rfl⟩
  | cons t rest ih =>
    intro s i h
    have hne : t.id ≠ i := h t (List.mem_cons_self _ _)
    have ih2 := ih (sweepRunningFalse s t) i (fun u hu => h u (List.mem_cons_of_mem _ hu))
    simp only [List.foldl_cons]
    refine ⟨?_, ?_⟩
    · rw [ih2.1]
      show i ∈ setRunningFalse s.running t.id ↔ i ∈ s.running
      rw [mem_setRunningFalse]
      exact and_iff_left (Ne.symm hne)
    · rw [ih2.2]
      show (s.fired ++ [some t.id]).count (some i) = s.fired.count (some i)
      exact count_append_ne _ _ _ (fun hx => hne (Option.some.inj hx))

/-- A node of the sweep list, when all sweep-list tags are pairwise
distinct, ends the sweep fold with running cleared and exactly one
fresh targeted invalidation. -/
theorem sweepFold_hit (L : List GinkgoNode) (s : ProviderState) (t0 : GinkgoNode)
    (hmem : t0 ∈ L) (hnd : (L.map GinkgoNode.id).Nodup) :
    t0.id ∉ (L.foldl sweepRunningFalse s).running ∧
    (L.foldl sweepRunningFalse s).fired.count (some t0.id) =
      s.fired.count (some t0.id) + 1 := by
  obtain ⟨L1, L2, rfl⟩ := List.append_of_mem hmem
  rw [List.map_append, List.map_cons] at hnd
  have hnd2 := List.nodup_middle.mp hnd
  rw [List.nodup_cons] at hnd2
  obtain ⟨hnotin, -⟩ := hnd2
  have h1 : ∀ t ∈ L1, t.id ≠ t0.id := by
    intro t ht heq
    apply hnotin
    rw [List.mem_append]
    left
    rw [← heq]
    exact List.mem_map_of_mem _ ht
  have h2 : ∀ t ∈ L2, t.id ≠ t0.id := by
    intro t ht heq
    apply hnotin
    rw [List.mem_append]
    right
    rw [← heq]
    exact List.mem_map_of_mem _ ht
  rw [List.foldl_append, List.foldl_cons]
  have hu1 := sweepFold_untouched L1 s t0.id h1
  have hstep_run : t0.id ∉ (sweepRunningFalse (L1.foldl sweepRunningFalse s) t0).running := by
    show t0.id ∉ setRunningFalse (L1.foldl sweepRunningFalse s).running t0.id
    rw [mem_setRunningFalse]
    simp
  have hstep_count :
      (sweepRunningFalse (L1.foldl sweepRunningFalse s) t0).fired.count (some t0.id) =
        s.fired.count (some t0.id) + 1 := by
    show ((L1.foldl sweepRunningFalse s).fired ++ [some t0.id]).count (some t0.id) = _
    rw [count_append_self, hu1.2]
  have hu2 := sweepFold_untouched L2
    (sweepRunningFalse (L1.foldl sweepRunningFalse s) t0) t0.id h2
  exact ⟨fun h => hstep_run (hu2.1.mp h), by rw [hu2.2, hstep_count]⟩

/-- Full behaviour of onTestResult at one fixed discovered node, with
the index rebuilt from the discovered list and pairwise distinct keys
and identity tags: a running node ends the batch settled (first
matching result attached, one fresh targeted invalidation) or swept
(forced to not running, one fresh targeted invalidation, outcome
untouched), and a node that was not running is untouched entirely. -/
theorem onTestResult_node_facts (results : List TestResult) (s : ProviderState)
    (hmap : s.discoveredTestsMap = buildDiscoveredMap s.discoveredTests)
    (hkeys : (s.discoveredTests.map GinkgoNode.key).Nodup)
    (hids : (s.discoveredTests.map GinkgoNode.id).Nodup)
    (n : GinkgoNode) (hn : n ∈ s.discoveredTests) :
    (n.id ∈ s.running →
      n.id ∉ (onTestResult results s).running ∧
      (onTestResult results s).fired.count (some n.id) =
        s.fired.count (some n.id) + 1 ∧
      (∀ r0, results.find? (fun r => r.testName == n.key) = some r0 →
        resultGet (onTestResult results s).nodeResult n.id = some r0) ∧
      (results.find? (fun r => r.testName == n.key) = none →
        resultGet (onTestResult results s).nodeResult n.id =
          resultGet s.nodeResult n.id)) ∧
    (n.id ∉ s.running →
      n.id ∉ (onTestResult results s).running ∧
      (onTestResult results s).fired.count (some n.id) = s.fired.count (some n.id) ∧
      resultGet (onTestResult results s).nodeResult n.id =
        resultGet s.nodeResult n.id) := by
  obtain ⟨hdt, hdm, hruncase, hnotcase⟩ :=
    phase1_node_spec results s [] n hmap hkeys hids hn
  have hon : onTestResult results s =
      ((results.foldl processResult (s, [])).1.discoveredTests.filter
        (fun t => !(t.key ∈ (results.foldl processResult (s, [])).2 : Bool) &&
          (t.id ∈ (results.foldl processResult (s, [])).1.running : Bool))).foldl
        sweepRunningFalse (results.foldl processResult (s, [])).1 := rfl
  have hfr := sweepFold_frame
    ((results.foldl processResult (s, [])).1.discoveredTests.filter
      (fun t => !(t.key ∈ (results.foldl processResult (s, [])).2 : Bool) &&
        (t.id ∈ (results.foldl processResult (s, [])).1.running : Bool)))
    (results.foldl processResult (s, [])).1
  constructor
  · intro hrun
    cases hfind : results.find? (fun r => r.testName == n.key) with
    | some r0 =>
      obtain ⟨ha, hb, hc, hd⟩ := (hruncase hrun).1 r0 hfind
      have huntouched : ∀ t ∈
          ((results.foldl processResult (s, [])).1.discoveredTests.filter
            (fun t => !(t.key ∈ (results.foldl processResult (s, [])).2 : Bool) &&
              (t.id ∈ (results.foldl processResult (s, [])).1.running : Bool))),
          t.id ≠ n.id := by
        intro t ht heq
        rw [List.mem_filter] at ht
        obtain ⟨htmem, hcond⟩ := ht
        rw [hdt] at htmem
        obtain rfl := List.inj_on_of_nodup_map hids htmem hn heq
        simp only [Bool.and_eq_true, decide_eq_true_eq] at hcond
        exact ha hcond.2
      have hu := sweepFold_untouched _ (results.foldl processResult (s, [])).1 n.id huntouched
      rw [hon]
      refine ⟨fun h => ha (hu.1.mp h), by rw [hu.2, hd], ?_, ?_⟩
      · intro r0b hr0b
        injection hr0b with hr0b
        subst hr0b
        rw [hfr.2.2]
        exact hc
      · intro hnone
        cases hnone
    | none =>
      obtain ⟨ha, hb, hc, hd⟩ := (hruncase hrun).2 hfind
      have hkeynotin : n.key ∉ (results.foldl processResult (s, [])).2 := by
        intro h
        simpa using hb.mp h
      have hmemL : n ∈
          ((results.foldl processResult (s, [])).1.discoveredTests.filter
            (fun t => !(t.key ∈ (results.foldl processResult (s, [])).2 : Bool) &&
              (t.id ∈ (results.foldl processResult (s, [])).1.running : Bool))) := by
        rw [List.mem_filter]
        refine ⟨by rw [hdt]; exact hn, ?_⟩
        simp only [Bool.and_eq_true, Bool.not_eq_true', decide_eq_false_iff_not,
          decide_eq_true_eq]
        exact ⟨hkeynotin, ha⟩
      have hndL :
          (((results.foldl processResult (s, [])).1.discoveredTests.filter
            (fun t => !(t.key ∈ (results.foldl processResult (s, [])).2 : Bool) &&
              (t.id ∈ (results.foldl processResult (s, [])).1.running : Bool))).map
            GinkgoNode.id).Nodup := by
        refine List.Nodup.sublist (List.Sublist.map _ (List.filter_sublist _)) ?_
        rw [hdt]
        exact hids
      have hh := sweepFold_hit _ (results.foldl processResult (s, [])).1 n hmemL hndL
      rw [hon]
      refine ⟨hh.1, by rw [hh.2, hd], ?_, ?_⟩
      · intro r0b hr0b
        cases hr0b
      · intro _
        rw [hfr.2.2]
        exact hc
  · intro hnot
    obtain ⟨ha, hb, hc, hd⟩ := hnotcase hnot
    have huntouched : ∀ t ∈
        ((results.foldl processResult (s, [])).1.discoveredTests.filter
          (fun t => !(t.key ∈ (results.foldl processResult (s, [])).2 : Bool) &&
            (t.id ∈ (results.foldl processResult (s, [])).1.running : Bool))),
        t.id ≠ n.id := by
      intro t ht heq
      rw [List.mem_filter] at ht
      obtain ⟨htmem, hcond⟩ := ht
      rw [hdt] at htmem
      obtain rfl := List.inj_on_of_nodup_map hids htmem hn heq
      simp only [Bool.and_eq_true, decide_eq_true_eq] at hcond
      exact ha hcond.2
    have hu := sweepFold_untouched _ (results.foldl processResult (s, [])).1 n.id huntouched
    rw [hon]
    refine ⟨fun h => ha (hu.1.mp h), by rw [hu.2, hd], ?_⟩
    rw [hfr.2.2]
    exact hc

/-- C2: for every result batch processed against the last-discovered
set (index rebuilt from that set, keys and identity tags pairwise
distinct): a discovered node that was running and has a matching
result in the batch ends with running cleared, the first such result
attached as its outcome, and exactly one targeted invalidation fired
for it; after the batch, a discovered node still marked running that
was not settled (no result matched it) has been forced to running
false with exactly one targeted invalidation and an untouched outcome;
a discovered node that was not running is left untouched. -/
theorem onTestResult_batch_spec (results : List TestResult) (s : ProviderState)
    (hmap : s.discoveredTestsMap = buildDiscoveredMap s.discoveredTests)
    (hkeys : (s.discoveredTests.map GinkgoNode.key).Nodup)
    (hids : (s.discoveredTests.map GinkgoNode.id).Nodup)
    (n : GinkgoNode) (hn : n ∈ s.discoveredTests) :
    (n.id ∈ s.running →
      n.id ∉ (onTestResult results s).running ∧
      (onTestResult results s).fired.count (some n.id) =
        s.fired.count (some n.id) + 1 ∧
      (∀ r0, results.find? (fun r => r.testName == n.key) = some r0 →
        resultGet (onTestResult results s).nodeResult n.id = some r0) ∧
      (results.find? (fun r => r.testName == n.key) = none →
        resultGet (onTestResult results s).nodeResult n.id =
          resultGet s.nodeResult n.id)) ∧
    (n.id ∉ s.running →
      n.id ∉ (onTestResult results s).running ∧
      (onTestResult results s).fired.count (some n.id) = s.fired.count (some n.id) ∧
      resultGet (onTestResult results s).nodeResult n.id =
        resultGet s.nodeResult n.id) :=
  onTestResult_node_facts results s hmap hkeys hids n hn

/-- Witness for C2: in the sample state with both leaves running, the
batch holding one passing result for the first leaf clears its running
flag, attaches the result, and fires exactly one targeted invalidation
for it. -/
theorem onTestResult_batch_spec_witness :
    leafA.id ∉ (onTestResult [exResult] exRunningState).running ∧
    (onTestResult [exResult] exRunningState).fired.count (some leafA.id) =
      exRunningState.fired.count (some leafA.id) + 1 ∧
    resultGet (onTestResult [exResult] exRunningState).nodeResult leafA.id =
      some exResult := by
  have h := (onTestResult_batch_spec [exResult] exRunningState rfl (by decide)
    (by decide) leafA
    (List.mem_cons_of_mem _ (List.mem_cons_of_mem _ (List.mem_cons_self _ _)))).1
    (by decide)
  exact ⟨h.1, h.2.1, h.2.2.1 exResult rfl⟩

/-- The first phase of onTestResult never touches the discovered list
or the discovery index. -/
theorem phase1_frame (results : List TestResult) :
    ∀ (s : ProviderState) (inR : List String),
    (results.foldl processResult (s, inR)).1.discoveredTests = s.discoveredTests ∧
    (results.foldl processResult (s, inR)).1.discoveredTestsMap =
      s.discoveredTestsMap := by
  induction results with
  | nil => intro s inR; exact ⟨rfl, rfl⟩
  | cons r rest ih =>
    intro s inR
    simp only [List.foldl_cons]
    cases hm : mapGet s.discoveredTestsMap r.testName with
    | none =>
      have hstep : processResult (s, inR) r = (s, inR) := by simp [processResult, hm]
      rw [hstep]
      exact ih s inR
    | some m =>
      by_cases hid : m.id ∈ s.running
      · have hstep : processResult (s, inR) r =
            ({ s with running := setRunningFalse s.running m.id,
                      nodeResult := resultSet s.nodeResult m.id r,
                      fired := s.fired ++ [some m.id] }, inR ++ [m.key]) := by
          simp [processResult, hm, hid]
        rw [hstep]
        exact ih _ _
      · have hstep : processResult (s, inR) r = (s, inR) := by
          simp [processResult, hm, hid]
        rw [hstep]
        exact ih s inR

/-- onTestResult never touches the discovered list or the discovery
index. -/
theorem onTestResult_frame (results : List TestResult) (s : ProviderState) :
    (onTestResult results s).discoveredTests = s.discoveredTests ∧
    (onTestResult results s).discoveredTestsMap = s.discoveredTestsMap := by
  have hon : onTestResult results s =
      ((results.foldl processResult (s, [])).1.discoveredTests.filter
        (fun t => !(t.key ∈ (results.foldl processResult (s, [])).2 : Bool) &&
          (t.id ∈ (results.foldl processResult (s, [])).1.running : Bool))).foldl
        sweepRunningFalse (results.foldl processResult (s, [])).1 := rfl
  have hsw := sweepFold_frame
    ((results.foldl processResult (s, [])).1.discoveredTests.filter
      (fun t => !(t.key ∈ (results.foldl processResult (s, [])).2 : Bool) &&
        (t.id ∈ (results.foldl processResult (s, [])).1.running : Bool)))
    (results.foldl processResult (s, [])).1
  have hph := phase1_frame results s []
  rw [hon]
  exact ⟨hsw.1.trans hph.1, hsw.2.1.trans hph.2⟩

/-- When every node reachable through the discovery index has running
false, the first phase of onTestResult is the identity on any
accumulator. -/
theorem phase1_identity (results : List TestResult) :
    ∀ (s : ProviderState) (inR : List String),
    (∀ k m, mapGet s.discoveredTestsMap k = some m → m.id ∉ s.running) →
    results.foldl processResult (s, inR) = (s, inR) := by
  induction results with
  | nil => intro s inR _; rfl
  | cons r rest ih =>
    intro s inR h
    simp only [List.foldl_cons]
    cases hm : mapGet s.discoveredTestsMap r.testName with
    | none =>
      have hstep : processResult (s, inR) r = (s, inR) := by simp [processResult, hm]
      rw [hstep]
      exact ih s inR h
    | some m =>
      have hstep : processResult (s, inR) r = (s, inR) := by
        simp [processResult, hm, h r.testName m hm]
      rw [hstep]
      exact ih s inR h

/-- When every node reachable through the discovery index and every
node of the discovered list has running false, onTestResult changes
nothing at all and fires no invalidation. -/
theorem onTestResult_identity (results : List TestResult) (s : ProviderState)
    (hmapval : ∀ k m, mapGet s.discoveredTestsMap k = some m → m.id ∉ s.running)
    (hdisc : ∀ t ∈ s.discoveredTests, t.id ∉ s.running) :
    onTestResult results s = s := by
  have hp : results.foldl processResult (s, []) = (s, []) :=
    phase1_identity results s [] hmapval
  have hon : onTestResult results s =
      ((results.foldl processResult (s, [])).1.discoveredTests.filter
        (fun t => !(t.key ∈ (results.foldl processResult (s, [])).2 : Bool) &&
          (t.id ∈ (results.foldl processResult (s, [])).1.running : Bool))).foldl
        sweepRunningFalse (results.foldl processResult (s, [])).1 := rfl
  rw [hon, hp]
  show (s.discoveredTests.filter
      (fun t => !(t.key ∈ ([] : List String) : Bool) &&
        (t.id ∈ s.running : Bool))).foldl sweepRunningFalse s = s
  have hfilter : s.discoveredTests.filter
      (fun t => !(t.key ∈ ([] : List String) : Bool) &&
        (t.id ∈ s.running : Bool)) = [] := by
    rw [List.filter_eq_nil_iff]
    intro t ht
    simp only [Bool.and_eq_true, decide_eq_true_eq, not_and]
    intro _
    exact fun h => hdisc t ht h
  rw [hfilter]
  rfl

/-- After any result batch, no node of the discovered list is left
running. -/
theorem onTestResult_stops_discovered (results : List TestResult) (s : ProviderState)
    (hmap : s.discoveredTestsMap = buildDiscoveredMap s.discoveredTests)
    (hkeys : (s.discoveredTests.map GinkgoNode.key).Nodup)
    (hids : (s.discoveredTests.map GinkgoNode.id).Nodup) :
    ∀ n ∈ s.discoveredTests, n.id ∉ (onTestResult results s).running := by
  intro n hn
  have h := onTestResult_node_facts results s hmap hkeys hids n hn
  by_cases hrun : n.id ∈ s.running
  · exact (h.1 hrun).1
  · exact (h.2 hrun).1

/-- C7: with the index rebuilt from the discovered list and pairwise
distinct keys and identity tags, processing the same result batch a
second time changes nothing: after the first pass every node the batch
could match has running false, so the second pass settles nothing,
sweeps nothing, mutates no node state, and fires no invalidation; the
resulting state, its fired log included, is identical. -/
theorem onTestResult_idempotent (results : List TestResult) (s : ProviderState)
    (hmap : s.discoveredTestsMap = buildDiscoveredMap s.discoveredTests)
    (hkeys : (s.discoveredTests.map GinkgoNode.key).Nodup)
    (hids : (s.discoveredTests.map GinkgoNode.id).Nodup) :
    onTestResult results (onTestResult results s) = onTestResult results s := by
  have hframe := onTestResult_frame results s
  have hstops := onTestResult_stops_discovered results s hmap hkeys hids
  apply onTestResult_identity
  · intro k m hm
    rw [hframe.2, hmap] at hm
    obtain ⟨hmem, -⟩ := mapGet_buildDiscoveredMap_some _ _ _ hm
    exact hstops m hmem
  · intro t ht
    rw [hframe.1] at ht
    exact hstops t ht

/-- Witness for C7: reprocessing the sample batch on the sample running
state is invisible the second time. -/
theorem onTestResult_idempotent_witness :
    onTestResult [exResult] (onTestResult [exResult] exRunningState) =
      onTestResult [exResult] exRunningState :=
  onTestResult_idempotent [exResult] exRunningState rfl (by decide) (by decide)

/-- Every state extends itself. -/
theorem stateExtends_refl (s : ProviderState) : StateExtends s s :=
  ⟨rfl, fun _ h => h, fun _ h => h⟩

/-- State extension is transitive. -/
theorem stateExtends_trans {s t u : ProviderState}
    (h1 : StateExtends s t) (h2 : StateExtends t u) : StateExtends s u :=
  ⟨h2.1.trans h1.1, fun i hi => h2.2.1 i (h1.2.1 i hi),
   fun e he => h2.2.2 e (h1.2.2 e he)⟩

/-- A fold whose every step extends the state extends the state. -/
theorem foldl_stateExtends {α : Type} (f : ProviderState → α → ProviderState)
    (hf : ∀ st a, StateExtends st (f st a)) :
    ∀ (l : List α) (s : ProviderState), StateExtends s (l.foldl f s) := by
  intro l
  induction l with
  | nil => intro s; exact stateExtends_refl s
  | cons a rest ih =>
    intro s
    exact stateExtends_trans (hf s a) (ih (f s a))

/-- Starting a run on a node extends the state. -/
theorem onTestRunStarted_extends (m : GinkgoNode) (s : ProviderState) :
    StateExtends s (onTestRunStarted m s) :=
  ⟨rfl, fun _ hi => (mem_setRunningTrue _ _ _).mpr (Or.inl hi),
   fun _ he => List.mem_append_left _ he⟩

/-- prepareToRunTest extends the state at any fuel. -/
theorem prepareToRunTest_extends (fuel : Nat) : ∀ (node : GinkgoNode)
    (s : ProviderState), StateExtends s (prepareToRunTest fuel node s) := by
  induction fuel with
  | zero => intro node s; exact stateExtends_refl s
  | succ fuel ih =>
    intro node s
    have heq : prepareToRunTest (Nat.succ fuel) node s =
        (s.discoveredTests.filter (fun t => t.key == node.key)).foldl
          (fun st m =>
            if m.nodes.length > 0 then
              m.nodes.foldl (fun st2 c => prepareToRunTest fuel c st2)
                (onTestRunStarted m st)
            else onTestRunStarted m st) s := rfl
    rw [heq]
    apply foldl_stateExtends
    intro st m
    by_cases hc : m.nodes.length > 0
    · rw [if_pos hc]
      exact stateExtends_trans (onTestRunStarted_extends m st)
        (foldl_stateExtends _ (fun st2 c => ih c st2) m.nodes (onTestRunStarted m st))
    · rw [if_neg hc]
      exact onTestRunStarted_extends m st

/-- A node tree flattens to the node followed by the flattening of its
child list. -/
theorem subtreeFlatten_eq (n : GinkgoNode) :
    n.subtreeFlatten = n :: subtreeFlattenList n.nodes := by
  cases n
  rfl

/-- The height of a node is one more than the maximal child height. -/
theorem height_eq_one_add (n : GinkgoNode) :
    n.height = 1 + heightList n.nodes := by
  cases n
  rfl

/-- A child tree is no taller than the maximal height of the list it
belongs to. -/
theorem heightList_child {c : GinkgoNode} : ∀ {ns : List GinkgoNode}, c ∈ ns →
    c.height ≤ heightList ns := by
  intro ns
  induction ns with
  | nil => intro h; cases h
  | cons a rest ih =>
    intro h
    rcases List.mem_cons.mp h with rfl | h2
    · exact le_max_left _ _
    · exact le_trans (ih h2) (le_max_right _ _)

/-- Membership in the flattening of a list of trees is membership in
the flattening of one of its trees. -/
theorem mem_subtreeFlattenList (d : GinkgoNode) : ∀ (ns : List GinkgoNode),
    d ∈ subtreeFlattenList ns ↔ ∃ c ∈ ns, d ∈ c.subtreeFlatten := by
  intro ns
  induction ns with
  | nil => simp [subtreeFlattenList]
  | cons a rest ih =>
    show d ∈ a.subtreeFlatten ++ subtreeFlattenList rest ↔ _
    rw [List.mem_append, ih]
    constructor
    · rintro (h | ⟨c, hc, hd⟩)
      · exact ⟨a, List.mem_cons_self _ _, h⟩
      · exact ⟨c, List.mem_cons_of_mem _ hc, hd⟩
    · rintro ⟨c, hc, hd⟩
      rcases List.mem_cons.mp hc with rfl | h2
      · exact Or.inl hd
      · exact Or.inr ⟨c, h2, hd⟩

/-- With pairwise distinct keys, filtering a list for the key of one of
its members yields exactly that member. -/
theorem filter_key_unique : ∀ (l : List GinkgoNode) (n : GinkgoNode),
    (l.map GinkgoNode.key).Nodup → n ∈ l →
    l.filter (fun t => t.key == n.key) = [n] := by
  intro l
  induction l with
  | nil => intro n _ h; cases h
  | cons a rest ih =>
    intro n hnd hn
    simp only [List.map_cons, List.nodup_cons] at hnd
    rcases List.mem_cons.mp hn with rfl | h2
    · rw [List.filter_cons_of_pos (by simp)]
      have hrest : rest.filter (fun t => t.key == n.key) = [] := by
        rw [List.filter_eq_nil_iff]
        intro t ht
        simp only [beq_iff_eq]
        intro hkey
        exact hnd.1 (hkey ▸ List.mem_map_of_mem GinkgoNode.key ht)
      rw [hrest]
    · have hne : a.key ≠ n.key := by
        intro hkey
        exact hnd.1 (hkey ▸ List.mem_map_of_mem GinkgoNode.key h2)
      rw [List.filter_cons_of_neg (by simp [hne])]
      exact ih n hnd.2 h2

/-- Folding prepareToRunTest over a list of children marks every node
of every child subtree as running and signals it, provided each child
is discovered, keys are pairwise distinct, the discovered list is
closed under children, and the fuel dominates every child height. -/
theorem foldPrep_subtree (fuel : Nat)
    (hprep : ∀ (node : GinkgoNode) (s : ProviderState),
      (∀ m ∈ s.discoveredTests, ∀ c ∈ m.nodes, c ∈ s.discoveredTests) →
      (s.discoveredTests.map GinkgoNode.key).Nodup →
      node ∈ s.discoveredTests → node.height ≤ fuel →
      ∀ d ∈ node.subtreeFlatten,
        d.id ∈ (prepareToRunTest fuel node s).running ∧
        some d.id ∈ (prepareToRunTest fuel node s).fired) :
    ∀ (cs : List GinkgoNode) (s : ProviderState),
    (∀ m ∈ s.discoveredTests, ∀ c ∈ m.nodes, c ∈ s.discoveredTests) →
    (s.discoveredTests.map GinkgoNode.key).Nodup →
    (∀ c ∈ cs, c ∈ s.discoveredTests) →
    (∀ c ∈ cs, c.height ≤ fuel) →
    ∀ c ∈ cs, ∀ d ∈ c.subtreeFlatten,
      d.id ∈ (cs.foldl (fun st2 c2 => prepareToRunTest fuel c2 st2) s).running ∧
      some d.id ∈ (cs.foldl (fun st2 c2 => prepareToRunTest fuel c2 st2) s).fired := by
  intro cs
  induction cs with
  | nil => intro s _ _ _ _ c hc; cases hc
  | cons c0 rest ih =>
    intro s hclosed hkeys hmemall hheights c hc d hd
    simp only [List.foldl_cons]
    have hdt := (prepareToRunTest_extends fuel c0 s).1
    rcases List.mem_cons.mp hc with rfl | hcrest
    · have hfacts := hprep c s hclosed hkeys (hmemall c (List.mem_cons_self _ _))
        (hheights c (List.mem_cons_self _ _)) d hd
      have hext := foldl_stateExtends (fun st2 c2 => prepareToRunTest fuel c2 st2)
        (fun st a => prepareToRunTest_extends fuel a st) rest
        (prepareToRunTest fuel c s)
      exact ⟨hext.2.1 _ hfacts.1, hext.2.2 _ hfacts.2⟩
    · exact ih (prepareToRunTest fuel c0 s)
        (by rw [hdt]; exact hclosed)
        (by rw [hdt]; exact hkeys)
        (fun c2 h2 => by rw [hdt]; exact hmemall c2 (List.mem_cons_of_mem _ h2))
        (fun c2 h2 => hheights c2 (List.mem_cons_of_mem _ h2))
        c hcrest d hd

/-- With enough fuel, prepareToRunTest on a discovered node marks the
node and every node of its subtree as running and fires a run-started
invalidation for each, provided the discovered list is closed under
children and keys are pairwise distinct. -/
theorem prepareToRunTest_subtree (fuel : Nat) : ∀ (node : GinkgoNode)
    (s : ProviderState),
    (∀ m ∈ s.discoveredTests, ∀ c ∈ m.nodes, c ∈ s.discoveredTests) →
    (s.discoveredTests.map GinkgoNode.key).Nodup →
    node ∈ s.discoveredTests → node.height ≤ fuel →
    ∀ d ∈ node.subtreeFlatten,
      d.id ∈ (prepareToRunTest fuel node s).running ∧
      some d.id ∈ (prepareToRunTest fuel node s).fired := by
  induction fuel with
  | zero =>
    intro node s _ _ _ hfuel d _
    rw [height_eq_one_add] at hfuel
    exact absurd hfuel (by omega)
  | succ fuel ih =>
    intro node s hclosed hkeys hmem hfuel d hd
    have heq : prepareToRunTest (Nat.succ fuel) node s =
        (s.discoveredTests.filter (fun t => t.key == node.key)).foldl
          (fun st m =>
            if m.nodes.length > 0 then
              m.nodes.foldl (fun st2 c => prepareToRunTest fuel c st2)
                (onTestRunStarted m st)
            else onTestRunStarted m st) s := rfl
    have hfilter : s.discoveredTests.filter (fun t => t.key == node.key) = [node] :=
      filter_key_unique s.discoveredTests node hkeys hmem
    rw [heq, hfilter]
    simp only [List.foldl_cons, List.foldl_nil]
    have hheights : ∀ c ∈ node.nodes, c.height ≤ fuel := by
      intro c hc
      have h1 := heightList_child hc
      rw [height_eq_one_add] at hfuel
      omega
    rw [subtreeFlatten_eq] at hd
    rcases List.mem_cons.mp hd with rfl | hd2
    · have h1 : d.id ∈ (onTestRunStarted d s).running := by
        show d.id ∈ setRunningTrue s.running d.id
        exact (mem_setRunningTrue _ _ _).mpr (Or.inr rfl)
      have h2 : some d.id ∈ (onTestRunStarted d s).fired := by
        show some d.id ∈ s.fired ++ [some d.id]
        simp
      by_cases hc : d.nodes.length > 0
      · rw [if_pos hc]
        have hext := foldl_stateExtends (fun st2 c => prepareToRunTest fuel c st2)
          (fun st a => prepareToRunTest_extends fuel a st) d.nodes
          (onTestRunStarted d s)
        exact ⟨hext.2.1 _ h1, hext.2.2 _ h2⟩
      · rw [if_neg hc]
        exact ⟨h1, h2⟩
    · obtain ⟨c, hcns, hdc⟩ := (mem_subtreeFlattenList d node.nodes).mp hd2
      rw [if_pos (List.length_pos_of_mem hcns)]
      exact foldPrep_subtree fuel ih node.nodes (onTestRunStarted node s)
        hclosed hkeys (fun c2 h2 => hclosed node hmem c2 h2) hheights c hcns d hdc

/-- C6: prepareToRunTest on a discovered node emits a run-started
signal for the node and, recursively, for every descendant in its
subtree, setting running to true on each, not just on the node itself;
the discovered list is assumed closed under children with pairwise
distinct keys, as a flattened discovery event provides, and the fuel
rendering the unbounded recursion must dominate the subtree height. -/
theorem prepareToRunTest_fanout (fuel : Nat) (node : GinkgoNode) (s : ProviderState)
    (hclosed : ∀ m ∈ s.discoveredTests, ∀ c ∈ m.nodes, c ∈ s.discoveredTests)
    (hkeys : (s.discoveredTests.map GinkgoNode.key).Nodup)
    (hmem : node ∈ s.discoveredTests) (hfuel : node.height ≤ fuel) :
    ∀ d ∈ node.subtreeFlatten,
      d.id ∈ (prepareToRunTest fuel node s).running ∧
      some d.id ∈ (prepareToRunTest fuel node s).fired :=
  prepareToRunTest_subtree fuel node s hclosed hkeys hmem hfuel

/-- Witness for C6: preparing the sample root to run reaches the second
leaf, two levels down, marking it running and firing a run-started
invalidation for it. -/
theorem prepareToRunTest_fanout_witness :
    leafB.id ∈ (prepareToRunTest 3 rootR exDiscState).running ∧
    some leafB.id ∈ (prepareToRunTest 3 rootR exDiscState).fired := by
  have hclosed : ∀ m ∈ exDiscState.discoveredTests, ∀ c ∈ m.nodes,
      c ∈ exDiscState.discoveredTests := by
    intro m hm
    simp only [exDiscState, baseState, exDiscovered, List.mem_cons,
      List.not_mem_nil, or_false] at hm
    rcases hm with rfl | rfl | rfl | rfl
    · intro c hc
      simp only [rootR, GinkgoNode.nodes, List.mem_singleton] at hc
      subst hc
      simp [exDiscState, baseState, exDiscovered]
    · intro c hc
      simp only [containerC, GinkgoNode.nodes, List.mem_cons,
        List.not_mem_nil, or_false] at hc
      rcases hc with rfl | rfl
      · simp [exDiscState, baseState, exDiscovered]
      · simp [exDiscState, baseState, exDiscovered]
    · intro c hc
      simp [leafA, GinkgoNode.nodes] at hc
    · intro c hc
      simp [leafB, GinkgoNode.nodes] at hc
  have h := prepareToRunTest_fanout 3 rootR exDiscState hclosed (by decide)
    (List.mem_cons_self _ _) (by decide) leafB
    (by
      rw [subtreeFlatten_eq]
      refine List.mem_cons_of_mem _ ?_
      rw [show rootR.nodes = [containerC] from rfl]
      rw [show subtreeFlattenList [containerC] =
        containerC :: leafA.subtreeFlatten ++ (leafB.subtreeFlatten ++ []) from rfl]
      simp [subtreeFlatten_eq])
  exact h
